import Mathlib

/-!
Verification development for the search / fetch / code-execution chat
front-end (`src/exampleapicalls.py`).

The Python source is shallowly embedded:

* Python strings are `List Char` (and, where the byte level matters, i.e.
  percent-encoding of URLs, `List Nat` with values below 256);
* Python string primitives (`in`, `find`, slicing, `split`, `splitlines`,
  `strip`, `"x".join`) are translated as executable functions with CPython
  semantics;
* the network, the model API and the subprocess layer are oracles passed
  explicitly, so that theorems quantify over every possible environment
  behaviour;
* Streamlit session state (`messages`, `display_messages`,
  `last_executed_code`) is an explicit record threaded through the
  orchestration loop.
-/

namespace SearchFetch

/-! ### Python string primitives over lists -/

/-- Turn a Lean string literal into the `List Char` we compute with. -/
def strC (s : String) : List Char := s.data

/-- Boolean prefix test; mirrors comparing a Python string slice. -/
def isPreB [DecidableEq α] : List α → List α → Bool
  | [], _ => true
  | _ :: _, [] => false
  | a :: p, b :: s => if a = b then isPreB p s else false

/-- Boolean substring test, mirroring the Python `in` operator on strings. -/
def hasSub [DecidableEq α] : List α → List α → Bool
  | p, [] => isPreB p []
  | p, s@(_ :: rest) => isPreB p s || hasSub p rest

/-- Helper shared by the split functions: prepend a character to the first
piece of a split result. -/
def consHead (c : α) : List (List α) → List (List α)
  | [] => [[c]]
  | l :: ls => (c :: l) :: ls

/-- Fuel-indexed implementation of Python `str.split`; the fuel makes the
recursion structural (so concrete instances evaluate) and is irrelevant
once it is at least the length of the string. -/
def pySplitGAux [DecidableEq α] (sep : List α) : Nat → List α → List (List α)
  | _, [] => [[]]
  | 0, s => [s]
  | fuel + 1, c :: rest =>
    if isPreB sep (c :: rest) then [] :: pySplitGAux sep fuel ((c :: rest).drop sep.length)
    else consHead c (pySplitGAux sep fuel rest)

/-- Python `str.split(sep)` for a non-empty separator: greedy leftmost
matching, exactly as CPython. (CPython raises on an empty separator; the
source never passes one, so that case is given a dummy value.) -/
def pySplitG [DecidableEq α] (sep : List α) (s : List α) : List (List α) :=
  if sep = [] then [s] else pySplitGAux sep s.length s

theorem pySplitGAux_irrel [DecidableEq α] (sep : List α) (hsep : sep ≠ []) :
    ∀ (f1 : Nat) (s : List α) (f2 : Nat), s.length ≤ f1 → s.length ≤ f2 →
      pySplitGAux sep f1 s = pySplitGAux sep f2 s
  | f1, [], f2, _, _ => by
    cases f1 <;> cases f2 <;> rfl
  | 0, c :: rest, _, h1, _ => by
    simp at h1
  | f1 + 1, c :: rest, 0, _, h2 => by
    simp at h2
  | f1 + 1, c :: rest, f2 + 1, h1, h2 => by
    have hl : 0 < sep.length := List.length_pos.mpr hsep
    show (if isPreB sep (c :: rest) then
        [] :: pySplitGAux sep f1 ((c :: rest).drop sep.length)
      else consHead c (pySplitGAux sep f1 rest)) =
      (if isPreB sep (c :: rest) then
        [] :: pySplitGAux sep f2 ((c :: rest).drop sep.length)
      else consHead c (pySplitGAux sep f2 rest))
    by_cases hm : isPreB sep (c :: rest)
    · rw [if_pos hm, if_pos hm,
        pySplitGAux_irrel sep hsep f1 ((c :: rest).drop sep.length) f2
          (by simp at h1 ⊢; omega) (by simp at h2 ⊢; omega)]
    · rw [if_neg hm, if_neg hm,
        pySplitGAux_irrel sep hsep f1 rest f2
          (by simp at h1 ⊢; omega) (by simp at h2 ⊢; omega)]

theorem isPreB_iff [DecidableEq α] : ∀ (p s : List α), isPreB p s = true ↔ p <+: s
  | [], s => by simp [isPreB]
  | a :: p, [] => by simp [isPreB]
  | a :: p, b :: s => by
    by_cases h : a = b
    · subst h
      simp [isPreB, isPreB_iff p s, List.cons_prefix_cons]
    · simp [isPreB, h, List.cons_prefix_cons]

theorem hasSub_iff [DecidableEq α] : ∀ (p s : List α), hasSub p s = true ↔ p <:+: s
  | p, [] => by
    simp [hasSub, isPreB_iff, List.infix_nil, List.prefix_nil]
  | p, b :: s => by
    simp [hasSub, isPreB_iff, hasSub_iff p s, List.infix_cons_iff]

theorem hasSub_eq_false_iff [DecidableEq α] (p s : List α) :
    hasSub p s = false ↔ ¬ p <:+: s := by
  rw [← hasSub_iff]
  cases hasSub p s <;> simp

theorem pySplitG_nil [DecidableEq α] (sep : List α) (hsep : sep ≠ []) :
    pySplitG sep [] = [[]] := by
  rw [pySplitG, if_neg hsep]
  rfl

theorem pySplitG_cons [DecidableEq α] (sep : List α) (hsep : sep ≠ []) (c : α)
    (rest : List α) :
    pySplitG sep (c :: rest) =
      if isPreB sep (c :: rest) then [] :: pySplitG sep ((c :: rest).drop sep.length)
      else consHead c (pySplitG sep rest) := by
  have hl : 0 < sep.length := List.length_pos.mpr hsep
  rw [pySplitG, if_neg hsep]
  show (if isPreB sep (c :: rest) then
      [] :: pySplitGAux sep rest.length ((c :: rest).drop sep.length)
    else consHead c (pySplitGAux sep rest.length rest)) = _
  by_cases hm : isPreB sep (c :: rest)
  · rw [if_pos hm, if_pos hm, pySplitG, if_neg hsep,
      pySplitGAux_irrel sep hsep rest.length ((c :: rest).drop sep.length)
        ((c :: rest).drop sep.length).length (by simp; omega) (Nat.le_refl _)]
  · rw [if_neg hm, if_neg hm, pySplitG, if_neg hsep]

theorem consHead_ne_nil (c : α) (L : List (List α)) : consHead c L ≠ [] := by
  cases L <;> simp [consHead]

theorem pySplitG_ne_nil [DecidableEq α] (sep : List α) (hsep : sep ≠ []) :
    ∀ s, pySplitG sep s ≠ []
  | [] => by rw [pySplitG_nil sep hsep]; simp
  | c :: rest => by
    rw [pySplitG_cons sep hsep]
    by_cases h : isPreB sep (c :: rest) <;> simp [h, consHead_ne_nil]

/-- Python default whitespace for `str.strip` / `str.isspace`: the ASCII
whitespace and separator control characters plus the Unicode space
characters. -/
def pyIsSpace (c : Char) : Bool :=
  c.toNat ∈ [9, 10, 11, 12, 13, 28, 29, 30, 31, 32, 133, 160, 5760,
    8192, 8193, 8194, 8195, 8196, 8197, 8198, 8199, 8200, 8201, 8202,
    8232, 8233, 8239, 8287, 12288]

/-- The line boundaries recognised by Python `str.splitlines`. -/
def isLineBreak (c : Char) : Bool :=
  c.toNat ∈ [10, 11, 12, 13, 28, 29, 30, 133, 8232, 8233]

/-- After a line-break character, a carriage return followed by a newline
counts as a single boundary; consume the newline in that case. -/
def dropCrLf (c : Char) (rest : List Char) : List Char :=
  if c = Char.ofNat 13 ∧ rest.head? = some (Char.ofNat 10) then rest.tail else rest

theorem dropCrLf_length_le (c : Char) (rest : List Char) :
    (dropCrLf c rest).length ≤ rest.length := by
  unfold dropCrLf
  split
  · cases rest <;> simp
  · exact Nat.le_refl _

/-- Fuel-indexed implementation of `str.splitlines`; as with the split on a
separator, the fuel only makes the recursion structural. -/
def pySplitlinesAux : Nat → List Char → List (List Char)
  | _, [] => []
  | 0, s => [s]
  | fuel + 1, c :: rest =>
    if isLineBreak c then [] :: pySplitlinesAux fuel (dropCrLf c rest)
    else consHead c (pySplitlinesAux fuel rest)

/-- Python `str.splitlines`: split at line boundaries (with `\r\n` fused),
producing no trailing empty line. -/
def pySplitlines (s : List Char) : List (List Char) := pySplitlinesAux s.length s

theorem pySplitlinesAux_irrel :
    ∀ (f1 : Nat) (s : List Char) (f2 : Nat), s.length ≤ f1 → s.length ≤ f2 →
      pySplitlinesAux f1 s = pySplitlinesAux f2 s
  | f1, [], f2, _, _ => by
    cases f1 <;> cases f2 <;> rfl
  | 0, c :: rest, _, h1, _ => by
    simp at h1
  | f1 + 1, c :: rest, 0, _, h2 => by
    simp at h2
  | f1 + 1, c :: rest, f2 + 1, h1, h2 => by
    have hd := dropCrLf_length_le c rest
    show (if isLineBreak c then [] :: pySplitlinesAux f1 (dropCrLf c rest)
      else consHead c (pySplitlinesAux f1 rest)) =
      (if isLineBreak c then [] :: pySplitlinesAux f2 (dropCrLf c rest)
      else consHead c (pySplitlinesAux f2 rest))
    by_cases hm : isLineBreak c
    · rw [if_pos hm, if_pos hm,
        pySplitlinesAux_irrel f1 (dropCrLf c rest) f2
          (by simp at h1 ⊢; omega) (by simp at h2 ⊢; omega)]
    · rw [if_neg hm, if_neg hm,
        pySplitlinesAux_irrel f1 rest f2
          (by simp at h1 ⊢; omega) (by simp at h2 ⊢; omega)]

theorem pySplitlines_nil : pySplitlines [] = [] := rfl

theorem pySplitlines_cons (c : Char) (rest : List Char) :
    pySplitlines (c :: rest) =
      if isLineBreak c then [] :: pySplitlines (dropCrLf c rest)
      else consHead c (pySplitlines rest) := by
  have hd := dropCrLf_length_le c rest
  rw [pySplitlines]
  show (if isLineBreak c then [] :: pySplitlinesAux rest.length (dropCrLf c rest)
    else consHead c (pySplitlinesAux rest.length rest)) = _
  by_cases hm : isLineBreak c
  · rw [if_pos hm, if_pos hm, pySplitlines,
      pySplitlinesAux_irrel rest.length (dropCrLf c rest) (dropCrLf c rest).length
        hd (Nat.le_refl _)]
  · rw [if_neg hm, if_neg hm, pySplitlines]

/-- Python `str.strip()` with the default whitespace set. -/
def pyStrip (s : List Char) : List Char :=
  ((s.dropWhile pyIsSpace).reverse.dropWhile pyIsSpace).reverse

/-- Python `sep.join(pieces)`. -/
def joinWith (sep : List α) : List (List α) → List α
  | [] => []
  | [l] => l
  | l :: rest => l ++ sep ++ joinWith sep rest

/-! ### Infix occurrences survive the whitespace pipeline -/

theorem head?_mem {p : List α} {a : α} (h : p.head? = some a) : a ∈ p := by
  cases p with
  | nil => cases h
  | cons x xs =>
    rw [List.head?_cons, Option.some.injEq] at h
    exact h ▸ List.mem_cons_self _ _

theorem infix_cons_split {p : List α} {a : α} {t : List α}
    (h : p <:+: a :: t) (hne : p ≠ []) (hh : p.head? = some a → False) :
    p <:+: t := by
  rcases List.infix_cons_iff.mp h with hpre | hinf
  · exfalso
    cases p with
    | nil => exact hne rfl
    | cons x xs =>
      rcases List.cons_prefix_cons.mp hpre with ⟨rfl, -⟩
      exact hh rfl
  · exact hinf

/-- An occurrence whose first character is not dropped survives
`List.dropWhile`. -/
theorem infix_dropWhile_of_head {f : α → Bool} {p : List α} :
    ∀ {s : List α}, p <:+: s → p ≠ [] →
      (∀ h, p.head? = some h → f h = false) → p <:+: s.dropWhile f
  | [], h, hne, _ => by
    rw [List.infix_nil] at h
    exact absurd h hne
  | c :: t, h, hne, hhead => by
    by_cases hc : f c
    · have hp : p <:+: t := by
        rcases List.infix_cons_iff.mp h with hpre | hinf
        · exfalso
          cases p with
          | nil => exact hne rfl
          | cons x xs =>
            rcases List.cons_prefix_cons.mp hpre with ⟨rfl, -⟩
            rw [hhead x rfl] at hc
            exact Bool.false_ne_true hc
        · exact hinf
      rw [List.dropWhile_cons, if_pos hc]
      exact infix_dropWhile_of_head hp hne hhead
    · rw [List.dropWhile_cons, if_neg hc]
      exact h

/-- An occurrence whose boundary characters are not whitespace survives
Python `str.strip`. -/
theorem infix_pyStrip {p s : List Char} (h : p <:+: s) (hne : p ≠ [])
    (hhead : ∀ c, p.head? = some c → pyIsSpace c = false)
    (hlast : ∀ c, p.getLast? = some c → pyIsSpace c = false) :
    p <:+: pyStrip s := by
  unfold pyStrip
  have h1 : p <:+: s.dropWhile pyIsSpace := infix_dropWhile_of_head h hne hhead
  have h2 : p.reverse <:+: (s.dropWhile pyIsSpace).reverse := by
    rw [List.reverse_infix]; exact h1
  have h3 : p.reverse <:+: (s.dropWhile pyIsSpace).reverse.dropWhile pyIsSpace := by
    refine infix_dropWhile_of_head h2 (by simpa using hne) ?_
    intro c hc
    exact hlast c (by rwa [List.head?_reverse] at hc)
  have h4 := List.reverse_infix.mpr h3
  rwa [List.reverse_reverse] at h4

theorem consHead_headD (c : α) (L : List (List α)) :
    (consHead c L).headD [] = c :: L.headD [] := by
  cases L <;> simp [consHead]

theorem consHead_headD_mem (c : α) (L : List (List α)) :
    c :: L.headD [] ∈ consHead c L := by
  cases L <;> simp [consHead]

theorem consHead_lift {c : α} {L : List (List α)} {x : List α} (hx : x ∈ L) :
    ∃ y ∈ consHead c L, x <:+: y := by
  cases L with
  | nil => cases hx
  | cons l ls =>
    rcases List.mem_cons.mp hx with rfl | h
    · exact ⟨c :: x, List.mem_cons_self _ _, List.infix_cons (List.infix_refl x)⟩
    · exact ⟨x, List.mem_cons_of_mem _ h, List.infix_refl x⟩

/-- A prefix containing no line boundary is a prefix of the first line. -/
theorem prefix_firstLine : ∀ (s q : List Char), q <+: s →
    (∀ c ∈ q, isLineBreak c = false) → q <+: (pySplitlines s).headD []
  | _, [], _, _ => List.nil_prefix
  | [], q, hq, _ => by
    rw [List.prefix_nil] at hq
    subst hq
    exact List.nil_prefix
  | c :: rest, a :: q, hq, hlb => by
    rcases List.cons_prefix_cons.mp hq with ⟨rfl, hq2⟩
    have hcb : isLineBreak a = false := hlb a (List.mem_cons_self _ _)
    rw [pySplitlines_cons, if_neg (by simp [hcb]), consHead_headD]
    exact List.cons_prefix_cons.mpr
      ⟨rfl, prefix_firstLine rest q hq2 (fun x hx => hlb x (List.mem_cons_of_mem _ hx))⟩

/-- An occurrence containing no line boundary lies inside a single line of
`splitlines`. -/
theorem infix_some_line : ∀ (s p : List Char), p <:+: s → p ≠ [] →
    (∀ c ∈ p, isLineBreak c = false) → ∃ l ∈ pySplitlines s, p <:+: l
  | [], p, h, hne, _ => absurd (List.infix_nil.mp h) hne
  | c :: rest, p, h, hne, hlb => by
    rw [pySplitlines_cons]
    by_cases hc : isLineBreak c
    · have h1 : p <:+: rest := infix_cons_split h hne (fun hm => by
        rw [hlb c (head?_mem hm)] at hc
        exact Bool.false_ne_true hc)
      have h2 : p <:+: dropCrLf c rest := by
        unfold dropCrLf
        split
        · next hcr =>
          cases rest with
          | nil => simpa using h1
          | cons b bs =>
            have hb : b = Char.ofNat 10 := by simpa using hcr.2
            subst hb
            refine infix_cons_split h1 hne fun hm => ?_
            have h10 : isLineBreak (Char.ofNat 10) = true := by decide
            rw [hlb _ (head?_mem hm)] at h10
            exact Bool.false_ne_true h10
        · exact h1
      obtain ⟨l, hl, hpl⟩ := infix_some_line (dropCrLf c rest) p h2 hne hlb
      exact ⟨l, by simp [hc, List.mem_cons_of_mem _ hl], hpl⟩
    · rcases List.infix_cons_iff.mp h with hpre | hinf
      · cases p with
        | nil => exact absurd rfl hne
        | cons a q =>
          rcases List.cons_prefix_cons.mp hpre with ⟨rfl, hq⟩
          have hq2 : q <+: (pySplitlines rest).headD [] :=
            prefix_firstLine rest q hq (fun x hx => hlb x (List.mem_cons_of_mem _ hx))
          refine ⟨a :: (pySplitlines rest).headD [], ?_, ?_⟩
          · simp only [if_neg hc]
            exact consHead_headD_mem a (pySplitlines rest)
          · exact (List.cons_prefix_cons.mpr ⟨rfl, hq2⟩).isInfix
      · obtain ⟨l, hl, hpl⟩ := infix_some_line rest p hinf hne hlb
        obtain ⟨y, hy, hly⟩ := consHead_lift (c := c) hl
        exact ⟨y, by simp [hc, hy], hpl.trans hly⟩
termination_by s => s.length
decreasing_by
· have := dropCrLf_length_le c rest
  simp
  omega
· simp


/-! ### The double-space split of read_webpage -/

/-- The separator of the inner split in the whitespace collapsing. -/
def twoSpaces : List Char := strC "  "

theorem twoSpaces_eq : twoSpaces = [' ', ' '] := rfl

theorem twoSpaces_ne_nil : twoSpaces ≠ [] := by rw [twoSpaces_eq]; simp

theorem twoSpaces_prefix_iff (s : List Char) :
    twoSpaces <+: s ↔ ∃ r, s = ' ' :: ' ' :: r := by
  rw [twoSpaces_eq]
  constructor
  · rintro ⟨t, rfl⟩
    exact ⟨t, rfl⟩
  · rintro ⟨r, rfl⟩
    exact ⟨r, rfl⟩

/-- A prefix whose occurrence cannot be cut by a double-space separator is a
prefix of the first piece of the split. -/
theorem chunkPre : ∀ (s q : List Char), q <+: s → ¬ (twoSpaces <:+: q) →
    (∀ c, q.getLast? = some c → c ≠ ' ') →
    (q.head? = some ' ' → isPreB twoSpaces s = false) →
    q <+: (pySplitG twoSpaces s).headD []
  | _, [], _, _, _, _ => List.nil_prefix
  | [], q, hq, _, _, _ => by
    rw [List.prefix_nil] at hq
    subst hq
    exact List.nil_prefix
  | c :: rest, a :: q, hq, hds, hlast, hstart => by
    rcases List.cons_prefix_cons.mp hq with ⟨rfl, hq2⟩
    rw [pySplitG_cons _ twoSpaces_ne_nil _ _]
    by_cases hm : isPreB twoSpaces (a :: rest)
    · obtain ⟨r2, heq⟩ := (twoSpaces_prefix_iff _).mp ((isPreB_iff _ _).mp hm)
      have ha : a = ' ' := by
        injection heq
      exact absurd (hstart (by simp [ha])) (by simp [hm])
    · rw [if_neg hm, consHead_headD]
      refine List.cons_prefix_cons.mpr ⟨rfl, chunkPre rest q hq2 ?_ ?_ ?_⟩
      · intro hcon
        exact hds (hcon.trans (List.infix_cons (List.infix_refl q)))
      · intro d hd
        apply hlast d
        cases q with
        | nil => cases hd
        | cons b bs =>
          rw [List.getLast?_cons_cons]
          exact hd
      · intro hqh
        by_contra hcon
        rw [Bool.not_eq_false] at hcon
        obtain ⟨r2, rfl⟩ := (twoSpaces_prefix_iff _).mp ((isPreB_iff _ _).mp hcon)
        cases q with
        | nil => cases hqh
        | cons b bs =>
          have hb : b = ' ' := by simpa using hqh
          subst hb
          rcases List.cons_prefix_cons.mp hq2 with ⟨-, hbs⟩
          cases bs with
          | nil => exact hlast ' ' (by rw [List.getLast?_cons_cons]; rfl) rfl
          | cons e es =>
            rcases List.cons_prefix_cons.mp hbs with ⟨rfl, -⟩
            exact hds ⟨[a], es, by rw [twoSpaces_eq]; simp⟩

/-- An occurrence with non-space boundary characters and no internal double
space lies inside a single piece of the double-space split. -/
theorem chunkInfix : ∀ (s p : List Char), p <:+: s → p ≠ [] →
    (∀ c, p.head? = some c → c ≠ ' ') → (∀ c, p.getLast? = some c → c ≠ ' ') →
    ¬ (twoSpaces <:+: p) → ∃ ch ∈ pySplitG twoSpaces s, p <:+: ch
  | [], p, h, hne, _, _, _ => absurd (List.infix_nil.mp h) hne
  | c :: rest, p, h, hne, hhead, hlast, hds => by
    rw [pySplitG_cons _ twoSpaces_ne_nil _ _]
    by_cases hm : isPreB twoSpaces (c :: rest)
    · rw [if_pos hm]
      obtain ⟨r2, heq⟩ := (twoSpaces_prefix_iff _).mp ((isPreB_iff _ _).mp hm)
      obtain ⟨rfl, hrest⟩ : c = ' ' ∧ rest = ' ' :: r2 := by
        injection heq with h1 h2
        exact ⟨h1, h2⟩
      subst hrest
      have h1 : p <:+: ' ' :: r2 := infix_cons_split h hne
        (fun hp0 => hhead ' ' hp0 rfl)
      have h2 : p <:+: r2 := infix_cons_split h1 hne
        (fun hp0 => hhead ' ' hp0 rfl)
      obtain ⟨ch, hch, hp⟩ := chunkInfix r2 p h2 hne hhead hlast hds
      refine ⟨ch, ?_, hp⟩
      have hdrop : (' ' :: ' ' :: r2).drop twoSpaces.length = r2 := by
        rw [twoSpaces_eq]
        rfl
      rw [hdrop]
      exact List.mem_cons_of_mem _ hch
    · rw [if_neg hm]
      rcases List.infix_cons_iff.mp h with hpre | hinf
      · cases p with
        | nil => exact absurd rfl hne
        | cons a q =>
          rcases List.cons_prefix_cons.mp hpre with ⟨rfl, hq⟩
          have hqpre : q <+: (pySplitG twoSpaces rest).headD [] := by
            refine chunkPre rest q hq ?_ ?_ ?_
            · intro hcon
              exact hds (hcon.trans (List.infix_cons (List.infix_refl q)))
            · intro d hd
              apply hlast d
              cases q with
              | nil => cases hd
              | cons b bs =>
                rw [List.getLast?_cons_cons]
                exact hd
            · intro hqh
              by_contra hcon
              rw [Bool.not_eq_false] at hcon
              obtain ⟨r2, rfl⟩ := (twoSpaces_prefix_iff _).mp ((isPreB_iff _ _).mp hcon)
              cases q with
              | nil => cases hqh
              | cons b bs =>
                have hb : b = ' ' := by simpa using hqh
                subst hb
                rcases List.cons_prefix_cons.mp hq with ⟨-, hbs⟩
                cases bs with
                | nil => exact hlast ' ' (by rw [List.getLast?_cons_cons]; rfl) rfl
                | cons e es =>
                  rcases List.cons_prefix_cons.mp hbs with ⟨rfl, -⟩
                  exact hds ⟨[a], es, by rw [twoSpaces_eq]; simp⟩
          exact ⟨a :: (pySplitG twoSpaces rest).headD [], consHead_headD_mem _ _,
            (List.cons_prefix_cons.mpr ⟨rfl, hqpre⟩).isInfix⟩
      · obtain ⟨ch, hch, hp⟩ := chunkInfix rest p hinf hne hhead hlast hds
        obtain ⟨y, hy, hcy⟩ := consHead_lift (c := c) hch
        exact ⟨y, hy, hp.trans hcy⟩
termination_by s _ => s.length
decreasing_by
· rw [hrest]
  simp only [List.length_cons]
  omega
· simp

theorem joinWith_cons_cons (sep : List α) (l l2 : List α) (ls : List (List α)) :
    joinWith sep (l :: l2 :: ls) = l ++ sep ++ joinWith sep (l2 :: ls) := by
  rw [joinWith]
  simp

theorem infix_joinWith {sep : List α} {x : List α} :
    ∀ {L : List (List α)}, x ∈ L → x <:+: joinWith sep L
  | [], hx => absurd hx (List.not_mem_nil x)
  | [l], hx => by
    rcases List.mem_singleton.mp hx with rfl
    exact List.infix_refl x
  | l :: l2 :: ls, hx => by
    rcases List.mem_cons.mp hx with rfl | hmem
    · exact ⟨[], sep ++ joinWith sep (l2 :: ls), by rw [joinWith_cons_cons]; simp⟩
    · refine (infix_joinWith hmem).trans
        (⟨l ++ sep, [], ?_⟩ : joinWith sep (l2 :: ls) <:+: joinWith sep (l :: l2 :: ls))
      rw [joinWith_cons_cons]
      simp

/-- Whitespace collapsing from `read_webpage` (source lines 176-178): strip
each line of the extracted text, split each stripped line at double-space
runs, strip each piece, keep the truthy (non-empty) pieces and join them
with single spaces. -/
def collapseText (text : List Char) : List Char :=
  let lines := (pySplitlines text).map pyStrip
  let chunks := lines.flatMap (fun line => (pySplitG twoSpaces line).map pyStrip)
  joinWith (strC " ") (chunks.filter (fun chunk => !chunk.isEmpty))

/-- An occurrence with non-whitespace boundary characters, no line breaks
and no internal double space survives the whitespace collapsing. -/
theorem collapse_preserves {p t : List Char} (hinf : p <:+: t) (hne : p ≠ [])
    (hhead : ∀ c, p.head? = some c → pyIsSpace c = false)
    (hlast : ∀ c, p.getLast? = some c → pyIsSpace c = false)
    (hlb : ∀ c ∈ p, isLineBreak c = false)
    (hds : ¬ twoSpaces <:+: p) :
    p <:+: collapseText t := by
  obtain ⟨l, hl, hpl⟩ := infix_some_line t p hinf hne hlb
  have h2 : p <:+: pyStrip l := infix_pyStrip hpl hne hhead hlast
  have hheadSp : ∀ c, p.head? = some c → c ≠ ' ' := by
    intro c hc he
    have := hhead c hc
    rw [he] at this
    exact absurd this (by decide)
  have hlastSp : ∀ c, p.getLast? = some c → c ≠ ' ' := by
    intro c hc he
    have := hlast c hc
    rw [he] at this
    exact absurd this (by decide)
  obtain ⟨ch, hch, hpch⟩ := chunkInfix (pyStrip l) p h2 hne hheadSp hlastSp hds
  have h4 : p <:+: pyStrip ch := infix_pyStrip hpch hne hhead hlast
  have hchne : ¬ (pyStrip ch).isEmpty := by
    intro he
    rw [List.isEmpty_iff] at he
    rw [he, List.infix_nil] at h4
    exact hne h4
  have hmem : pyStrip ch ∈
      (((pySplitlines t).map pyStrip).flatMap
        (fun line => (pySplitG twoSpaces line).map pyStrip)).filter
        (fun chunk => !chunk.isEmpty) := by
    rw [List.mem_filter]
    refine ⟨List.mem_flatMap.mpr ⟨pyStrip l, List.mem_map_of_mem _ hl,
      List.mem_map_of_mem _ hch⟩, ?_⟩
    simpa using hchne
  exact h4.trans (infix_joinWith hmem)

/-! ### read_webpage: DOM model, anchor replacement, truncation -/

/-- A parsed HTML node, as `read_webpage` sees it after BeautifulSoup
parsing. An anchor carries its `href` attribute (absent when the tag has
none) and its flattened text (`a_tag.text`). -/
inductive Node where
  | text (s : List Char)
  | anchor (href : Option (List Char)) (txt : List Char)
  | elem (tag : List Char) (children : List Node)

/-- The tags removed (decomposed) by `read_webpage` before text
extraction. -/
def removedTags : List (List Char) :=
  [strC "script", strC "style", strC "nav", strC "header", strC "footer"]

/-- Whether `soup([...]).decompose()` removes this node. -/
def isRemovedNode : Node → Bool
  | .elem tag _ => tag ∈ removedTags
  | _ => false

mutual

/-- Removal of script/style/nav/header/footer subtrees (source lines
166-167). -/
def removeNode : Node → Node
  | .text s => .text s
  | .anchor h t => .anchor h t
  | .elem tag cs => .elem tag (removeList cs)

def removeList : List Node → List Node
  | [] => []
  | n :: ns => if isRemovedNode n then removeList ns else removeNode n :: removeList ns

end

/-- The inline textual form substituted for an anchor (source line 173). -/
def inlineAnchor (txt href : List Char) : List Char :=
  strC "[ " ++ txt ++ strC " ]( " ++ href ++ strC " )"

mutual

/-- Replacement of every anchor that has an `href` by its inline textual
form (source lines 170-173). -/
def replaceNode : Node → Node
  | .text s => .text s
  | .anchor none t => .anchor none t
  | .anchor (some h) t => .text (inlineAnchor t h)
  | .elem tag cs => .elem tag (replaceList cs)

def replaceList : List Node → List Node
  | [] => []
  | n :: ns => replaceNode n :: replaceList ns

end

mutual

/-- `soup.get_text()`: concatenation of all text in document order. -/
def getTextNode : Node → List Char
  | .text s => s
  | .anchor _ t => t
  | .elem _ cs => getTextList cs

def getTextList : List Node → List Char
  | [] => []
  | n :: ns => getTextNode n ++ getTextList ns

end

/-- `read_webpage` (source lines 155-182). The upstream interaction is
abstracted: a successful GET-and-parse yields the top-level
nodes of the document, while any exception raised inside the `try` block yields the
exception message. The success branch removes unwanted elements, inlines
anchors, extracts and collapses the text, and truncates to 300000
characters; the failure branch returns the error string untruncated. -/
def read_webpage : Except (List Char) (List Node) → List Char
  | .ok doc => (collapseText (getTextList (replaceList (removeList doc)))).take 300000
  | .error e => strC "Error reading webpage: " ++ e

/-- An anchor with the given `href` and text that sits on a path avoiding
all removed tags (so that `read_webpage` keeps it). -/
inductive KeptAnchor (x y : List Char) : Node → Prop
  | here : KeptAnchor x y (.anchor (some x) y)
  | inside {tag : List Char} {cs : List Node} {n : Node} :
      tag ∉ removedTags → n ∈ cs → KeptAnchor x y n → KeptAnchor x y (.elem tag cs)

theorem mem_removeList {n : Node} : ∀ {cs : List Node}, n ∈ cs →
    isRemovedNode n = false → removeNode n ∈ removeList cs
  | [], hn, _ => absurd hn (List.not_mem_nil n)
  | m :: ms, hn, hkeep => by
    rcases List.mem_cons.mp hn with rfl | hmem
    · rw [removeList, if_neg (by simp [hkeep])]
      exact List.mem_cons_self _ _
    · rw [removeList]
      by_cases hrem : isRemovedNode m
      · rw [if_pos hrem]
        exact mem_removeList hmem hkeep
      · rw [if_neg hrem]
        exact List.mem_cons_of_mem _ (mem_removeList hmem hkeep)

theorem mem_replaceList {n : Node} : ∀ {cs : List Node}, n ∈ cs →
    replaceNode n ∈ replaceList cs
  | [], hn => absurd hn (List.not_mem_nil n)
  | m :: ms, hn => by
    rw [replaceList]
    rcases List.mem_cons.mp hn with rfl | hmem
    · exact List.mem_cons_self _ _
    · exact List.mem_cons_of_mem _ (mem_replaceList hmem)

theorem infix_getTextList {n : Node} : ∀ {cs : List Node}, n ∈ cs →
    getTextNode n <:+: getTextList cs
  | [], hn => absurd hn (List.not_mem_nil n)
  | m :: ms, hn => by
    rw [getTextList]
    rcases List.mem_cons.mp hn with rfl | hmem
    · exact ⟨[], getTextList ms, by simp⟩
    · refine (infix_getTextList hmem).trans
        (⟨getTextNode m, [], by simp⟩ : getTextList ms <:+: getTextNode m ++ getTextList ms)

/-- A kept anchor contributes its inline textual form to the extracted
text. -/
theorem keptAnchor_text {x y : List Char} {n : Node} (h : KeptAnchor x y n) :
    isRemovedNode n = false ∧
      inlineAnchor y x <:+: getTextNode (replaceNode (removeNode n)) := by
  induction h with
  | here =>
    refine ⟨rfl, ?_⟩
    rw [removeNode, replaceNode, getTextNode]
  | inside htag hmem _ ih =>
    refine ⟨by simp [isRemovedNode, htag], ?_⟩
    rw [removeNode, replaceNode, getTextNode]
    exact ih.2.trans (infix_getTextList (mem_replaceList (mem_removeList hmem ih.1)))

theorem inlineAnchor_head? (y x : List Char) :
    (inlineAnchor y x).head? = some '[' := rfl

theorem inlineAnchor_getLast? (y x : List Char) :
    (inlineAnchor y x).getLast? = some ')' := by
  have hsplit : inlineAnchor y x =
      (strC "[ " ++ y) ++ ((strC " ]( " ++ x) ++ strC " )") := by
    simp [inlineAnchor, List.append_assoc]
  rw [hsplit, List.getLast?_append, List.getLast?_append]
  rfl

theorem inlineAnchor_ne_nil (y x : List Char) : inlineAnchor y x ≠ [] := by
  intro h
  have := congrArg List.head? h
  rw [inlineAnchor_head? y x] at this
  exact Option.noConfusion this

/-- C6 (amended): on the success path the text returned by `read_webpage`
is truncated to at most 300000 characters; on the failure path it is the
fixed error prefix followed by the exception message, with no truncation. -/
theorem read_webpage_bound :
    (∀ doc : List Node, (read_webpage (.ok doc)).length ≤ 300000) ∧
      (∀ e : List Char, read_webpage (.error e) = strC "Error reading webpage: " ++ e) := by
  constructor
  · intro doc
    rw [read_webpage]
    rw [List.length_take]
    exact Nat.min_le_left _ _
  · intro e
    rfl

/-- C6 counterexample: an upstream failure whose exception message has
300001 characters makes `read_webpage` return 300024 characters, so the
claimed 300000-character bound does not cover the failure branch. -/
theorem read_webpage_bound_cx :
    ¬ (read_webpage (.error (List.replicate 300001 'a'))).length ≤ 300000 := by
  rw [read_webpage, List.length_append, List.length_replicate]
  decide

/-- C7 (amended): if the page body contains an anchor with href `x` and
text `y` outside the removed script/style/nav/header/footer subtrees, and
the inline form contains no line break and no double space, then the text
returned by `read_webpage` contains the substring produced for the anchor,
provided the collapsed page text does not exceed the 300000-character
truncation limit. -/
theorem read_webpage_anchor_survives (doc : List Node) (x y : List Char)
    (hk : ∃ n ∈ doc, KeptAnchor x y n)
    (hlb : ∀ c ∈ inlineAnchor y x, isLineBreak c = false)
    (hds : hasSub twoSpaces (inlineAnchor y x) = false)
    (hlen : (collapseText (getTextList (replaceList (removeList doc)))).length ≤ 300000) :
    hasSub (inlineAnchor y x) (read_webpage (.ok doc)) = true := by
  obtain ⟨n, hn, hkn⟩ := hk
  obtain ⟨hkeep, hinf⟩ := keptAnchor_text hkn
  have h1 : inlineAnchor y x <:+: getTextList (replaceList (removeList doc)) :=
    hinf.trans (infix_getTextList (mem_replaceList (mem_removeList hn hkeep)))
  have hne := inlineAnchor_ne_nil y x
  have hhead : ∀ c, (inlineAnchor y x).head? = some c → pyIsSpace c = false := by
    intro c hc
    rw [inlineAnchor_head?] at hc
    cases hc
    decide
  have hlast : ∀ c, (inlineAnchor y x).getLast? = some c → pyIsSpace c = false := by
    intro c hc
    rw [inlineAnchor_getLast?] at hc
    cases hc
    decide
  have h2 := collapse_preserves h1 hne hhead hlast hlb
    ((hasSub_eq_false_iff _ _).mp hds)
  rw [hasSub_iff, read_webpage, List.take_of_length_le hlen]
  exact h2

/-- Witness for the amended C7 theorem: a body with the text `Hello` and
an anchor whose inline form survives into the output. -/
theorem read_webpage_anchor_survives_witness :
    hasSub (inlineAnchor (strC "link") (strC "http://e.com/x"))
      (read_webpage (.ok [Node.elem (strC "body")
        [Node.text (strC "Hello "),
         Node.anchor (some (strC "http://e.com/x")) (strC "link")]])) = true := by
  apply read_webpage_anchor_survives
  · exact ⟨Node.elem (strC "body")
      [Node.text (strC "Hello "),
       Node.anchor (some (strC "http://e.com/x")) (strC "link")],
      List.mem_cons_self _ _,
      KeptAnchor.inside (by decide)
        (List.mem_cons_of_mem _ (List.mem_cons_self _ _)) KeptAnchor.here⟩
  · decide
  · decide
  · decide

/-- C7 counterexample: the page body `<nav><a href="u">Y</a></nav>`
contains an anchor element, yet the returned text does not contain
`[ Y ]( u )`, because the whole nav subtree is decomposed before anchor
replacement. -/
theorem read_webpage_anchor_dropped_cx :
    hasSub (inlineAnchor (strC "Y") (strC "u"))
      (read_webpage (.ok [Node.elem (strC "body")
        [Node.elem (strC "nav") [Node.anchor (some (strC "u")) (strC "Y")]]])) = false := by
  decide

/-! ### execute_code and extract_missing_module -/

/-- Index of the first occurrence of a character, or `none`. -/
def findFrom (c : Char) : List Char → Option Nat
  | [] => none
  | a :: rest => if a = c then some 0 else (findFrom c rest).map (· + 1)

/-- Python `str.find(c, start)` for a single character: the index of the
first occurrence at position `start` or later, `-1` when there is none. -/
def pyFindChar (s : List Char) (c : Char) (start : Nat) : Int :=
  match findFrom c (s.drop start) with
  | none => -1
  | some k => (start : Int) + k

/-- Python slicing `s[a:b]` for a non-negative start index `a` and an
arbitrary (possibly negative) stop index `b`. -/
def pySliceToI (s : List Char) (a : Nat) (b : Int) : List Char :=
  let stop : Nat := if b < 0 then (Int.toNat ((s.length : Int) + b)) else b.toNat
  (s.take stop).drop a

/-- The single-quote character searched for by `extract_missing_module`. -/
def quoteChar : Char := Char.ofNat 39

/-- `extract_missing_module` (source lines 247-257): when the error text
contains the `No module named` marker, take the slice between the first
single quote anywhere in the text and the next single quote after it
(`find` returns `-1` when absent, which Python slicing then treats as
`len - 1`); otherwise return `None`. Nothing in the body can raise, so the
`except` branch is dead code. -/
def extract_missing_module (msg : List Char) : Option (List Char) :=
  if hasSub (strC "No module named") msg then
    let start : Nat := (pyFindChar msg quoteChar 0 + 1).toNat
    let stop : Int := pyFindChar msg quoteChar start
    some (pySliceToI msg start stop)
  else none

/-- Python truthiness of an `Optional[str]`: `None` and the empty string
are falsy. -/
def optTruthy : Option (List Char) → Option (List Char)
  | some m => if m = [] then none else some m
  | none => none

/-- Result of one subprocess run of the submitted script: either captured
stdout on exit status 0, or the `CalledProcessError` stderr. -/
inductive RunResult where
  | ok (stdout : List Char)
  | err (stderr : List Char)

/-- The environment behaviour seen by one `execute_code` call: whether
venv provisioning raises (carrying the exception message), the result of
the first run of the script, whether `pip install` succeeds, and the
result of the retried run. -/
structure ExecEnv where
  venv : Option (List Char)
  run1 : RunResult
  installOk : Bool
  run2 : RunResult

/-- Observable outcome of `execute_code`: the returned log plus
instrumentation counting how many `pip install` and script-run subprocesses
were spawned. -/
structure ExecOutcome where
  log : List Char
  installs : Nat
  runs : Nat

/-- `"\n".join(logs)`. -/
def joinNL (lines : List (List Char)) : List Char := joinWith (strC "\n") lines

/-- `execute_code` (source lines 184-245): provision a venv, write the code
to a file, run it; on a `CalledProcessError` whose stderr mentions
`ModuleNotFoundError`, extract the module name, and if it is truthy install
it once and rerun once, logging each step; a failure of the install or of
the rerun is caught by the inner `except` and logged as an install error.
The submitted code influences the outcome only through the oracle
run results. -/
def execute_code (env : ExecEnv) (_code : List Char) : ExecOutcome :=
  match env.venv with
  | some e => ⟨strC "Unexpected error: " ++ e, 0, 0⟩
  | none =>
    let logs0 := [strC "Virtual environment set up."]
    match env.run1 with
    | .ok out =>
      ⟨joinNL (logs0 ++ [strC "Python code executed successfully.",
        strC "Execution output:\n\n" ++ out]), 0, 1⟩
    | .err stderr =>
      if hasSub (strC "ModuleNotFoundError") stderr then
        match optTruthy (extract_missing_module stderr) with
        | some m =>
          let logs1 := logs0 ++ [strC "Installing missing module: " ++ m ++ strC "..."]
          if env.installOk then
            let logs2 := logs1 ++ [strC "Module " ++ m ++ strC " installed successfully."]
            match env.run2 with
            | .ok out =>
              ⟨joinNL (logs2 ++ [strC "Python code executed successfully.",
                strC "Execution output:\n\n" ++ out]), 1, 2⟩
            | .err _ =>
              ⟨joinNL (logs2 ++ [strC "Error installing package: " ++ m]), 1, 2⟩
          else
            ⟨joinNL (logs1 ++ [strC "Error installing package: " ++ m]), 1, 1⟩
        | none =>
          ⟨joinNL (logs0 ++
            [strC "Error: Unable to extract module name from error: " ++ stderr]), 0, 1⟩
      else
        ⟨joinNL (logs0 ++ [strC "Error executing code: " ++ stderr]), 0, 1⟩

theorem hasSub_joinNL {p l : List Char} {L : List (List Char)}
    (hl : l ∈ L) (hp : p <:+: l) : hasSub p (joinNL L) = true := by
  rw [hasSub_iff]
  exact hp.trans (infix_joinWith hl)

/-- C3: whenever the first run fails with a stderr mentioning
`ModuleNotFoundError` and a truthy module name is extracted, exactly one
install is attempted; a retry run happens exactly when the install
succeeds, so at most two script runs ever occur; when install and retry
succeed the log contains the installing line and the executed-successfully
line; and a failure of the install or of the retry is logged as an
install error with no further attempts. -/
theorem execute_code_retry_once (env : ExecEnv) (code stderr : List Char)
    (hv : env.venv = none) (h1 : env.run1 = RunResult.err stderr)
    (hmn : hasSub (strC "ModuleNotFoundError") stderr = true)
    (hm : ∃ m, optTruthy (extract_missing_module stderr) = some m) :
    (execute_code env code).installs = 1 ∧
    (execute_code env code).runs ≤ 2 ∧
    (env.installOk = true → (execute_code env code).runs = 2) ∧
    (∀ out, env.installOk = true → env.run2 = RunResult.ok out →
      hasSub (strC "Installing missing module") (execute_code env code).log = true ∧
      hasSub (strC "executed successfully") (execute_code env code).log = true) ∧
    ((env.installOk = false ∨ ∃ e2, env.run2 = RunResult.err e2) →
      hasSub (strC "Error installing package") (execute_code env code).log = true) := by
  obtain ⟨m, hmq⟩ := hm
  obtain ⟨venv, run1, installOk, run2⟩ := env
  obtain rfl : venv = none := hv
  obtain rfl : run1 = RunResult.err stderr := h1
  have hInstLine : strC "Installing missing module" <:+:
      strC "Installing missing module: " ++ m ++ strC "..." := by
    refine List.IsPrefix.isInfix ?_
    have heq : strC "Installing missing module: " ++ m ++ strC "..." =
        strC "Installing missing module" ++ (strC ": " ++ m ++ strC "...") := by
      simp [strC, List.append_assoc]
    rw [heq]
    exact List.prefix_append _ _
  have hExecLine : strC "executed successfully" <:+:
      strC "Python code executed successfully." :=
    (hasSub_iff _ _).mp (by decide)
  have hErrLine : strC "Error installing package" <:+:
      strC "Error installing package: " ++ m := by
    refine List.IsPrefix.isInfix ?_
    have heq : strC "Error installing package: " ++ m =
        strC "Error installing package" ++ (strC ": " ++ m) := by
      simp [strC, List.append_assoc]
    rw [heq]
    exact List.prefix_append _ _
  cases installOk with
  | true =>
    cases run2 with
    | ok out =>
      have hr : execute_code ⟨none, RunResult.err stderr, true, RunResult.ok out⟩ code =
          ⟨joinNL [strC "Virtual environment set up.",
            strC "Installing missing module: " ++ m ++ strC "...",
            strC "Module " ++ m ++ strC " installed successfully.",
            strC "Python code executed successfully.",
            strC "Execution output:\n\n" ++ out], 1, 2⟩ := by
        simp only [execute_code]
        rw [if_pos hmn, hmq]
        exact rfl
      rw [hr]
      refine ⟨rfl, Nat.le_refl _, fun _ => rfl, fun o _ _ => ⟨?_, ?_⟩, ?_⟩
      · exact hasSub_joinNL (by simp) hInstLine
      · exact hasSub_joinNL (l := strC "Python code executed successfully.")
          (by simp) hExecLine
      · rintro (h | ⟨e2, h⟩)
        · exact Bool.noConfusion h
        · exact RunResult.noConfusion h
    | err e2 =>
      have hr : execute_code ⟨none, RunResult.err stderr, true, RunResult.err e2⟩ code =
          ⟨joinNL [strC "Virtual environment set up.",
            strC "Installing missing module: " ++ m ++ strC "...",
            strC "Module " ++ m ++ strC " installed successfully.",
            strC "Error installing package: " ++ m], 1, 2⟩ := by
        simp only [execute_code]
        rw [if_pos hmn, hmq]
        exact rfl
      rw [hr]
      refine ⟨rfl, Nat.le_refl _, fun _ => rfl,
        fun o _ ho => RunResult.noConfusion ho, fun _ => ?_⟩
      exact hasSub_joinNL (by simp) hErrLine
  | false =>
    have hr : execute_code ⟨none, RunResult.err stderr, false, run2⟩ code =
        ⟨joinNL [strC "Virtual environment set up.",
          strC "Installing missing module: " ++ m ++ strC "...",
          strC "Error installing package: " ++ m], 1, 1⟩ := by
      simp only [execute_code]
      rw [if_pos hmn, hmq]
      exact rfl
    rw [hr]
    refine ⟨rfl, Nat.le_of_lt (by exact Nat.lt_succ_self 1), fun h => Bool.noConfusion h,
      fun o h => Bool.noConfusion h, fun _ => ?_⟩
    exact hasSub_joinNL (by simp) hErrLine

/-- Witness for C3: a first run failing with a standard missing-module
stderr for `requests`, a successful install and a successful retry. -/
theorem execute_code_retry_once_witness :
    (execute_code ⟨none,
        RunResult.err (strC "ModuleNotFoundError: No module named " ++
          [quoteChar] ++ strC "requests" ++ [quoteChar]),
        true, RunResult.ok (strC "done")⟩ []).installs = 1 ∧
    (execute_code ⟨none,
        RunResult.err (strC "ModuleNotFoundError: No module named " ++
          [quoteChar] ++ strC "requests" ++ [quoteChar]),
        true, RunResult.ok (strC "done")⟩ []).runs ≤ 2 := by
  have h := execute_code_retry_once
    ⟨none,
      RunResult.err (strC "ModuleNotFoundError: No module named " ++
        [quoteChar] ++ strC "requests" ++ [quoteChar]),
      true, RunResult.ok (strC "done")⟩
    []
    (strC "ModuleNotFoundError: No module named " ++
      [quoteChar] ++ strC "requests" ++ [quoteChar])
    rfl rfl (by decide) ⟨strC "requests", by decide⟩
  exact ⟨h.1, h.2.1⟩

theorem findFrom_append {c : Char} : ∀ {a : List Char} (r : List Char),
    c ∉ a → findFrom c (a ++ c :: r) = some a.length
  | [], r, _ => by simp [findFrom]
  | x :: a, r, hx => by
    have hxc : ¬ x = c := fun h => hx (h ▸ List.mem_cons_self _ _)
    rw [List.cons_append, findFrom, if_neg hxc,
      findFrom_append r (fun hm => hx (List.mem_cons_of_mem _ hm))]
    rfl

/-- C4 (amended): on the missing-module path the name reported by
`extract_missing_module` is the substring between the first two single
quotes anywhere in the error text, not merely between the first two quotes
following the `No module named` marker; when the marker is absent the
extraction yields nothing; and when the extraction result is falsy,
`execute_code` logs the extraction-failure message and stops. -/
theorem extract_first_two_quotes :
    (∀ a b c : List Char,
      hasSub (strC "No module named") (a ++ quoteChar :: (b ++ quoteChar :: c)) = true →
      quoteChar ∉ a → quoteChar ∉ b →
      extract_missing_module (a ++ quoteChar :: (b ++ quoteChar :: c)) = some b) ∧
    (∀ msg : List Char, hasSub (strC "No module named") msg = false →
      extract_missing_module msg = none) ∧
    (∀ (env : ExecEnv) (code stderr : List Char), env.venv = none →
      env.run1 = RunResult.err stderr →
      hasSub (strC "ModuleNotFoundError") stderr = true →
      optTruthy (extract_missing_module stderr) = none →
      hasSub (strC "Error: Unable to extract module name")
        (execute_code env code).log = true) := by
  refine ⟨?_, ?_, ?_⟩
  · intro a b c hmark ha hb
    have hfind1 : pyFindChar (a ++ quoteChar :: (b ++ quoteChar :: c)) quoteChar 0 =
        (a.length : Int) := by
      rw [pyFindChar, List.drop_zero, findFrom_append _ ha]
      simp
    have hstart : ((a.length : Int) + 1).toNat = a.length + 1 := by omega
    have hfind2 : pyFindChar (a ++ quoteChar :: (b ++ quoteChar :: c)) quoteChar
        (a.length + 1) = ((a.length + 1 + b.length : Nat) : Int) := by
      rw [pyFindChar]
      have hdrop : (a ++ quoteChar :: (b ++ quoteChar :: c)).drop (a.length + 1) =
          b ++ quoteChar :: c := by
        have hsh : a ++ quoteChar :: (b ++ quoteChar :: c) =
            (a ++ [quoteChar]) ++ (b ++ quoteChar :: c) := by simp
        rw [hsh, List.drop_left' (by simp)]
      rw [hdrop, findFrom_append _ hb]
      push_cast
      ring
    have hslice : pySliceToI (a ++ quoteChar :: (b ++ quoteChar :: c)) (a.length + 1)
        ((a.length + 1 + b.length : Nat) : Int) = b := by
      simp only [pySliceToI]
      rw [if_neg (by omega : ¬ ((a.length + 1 + b.length : Nat) : Int) < 0)]
      have htn : ((a.length + 1 + b.length : Nat) : Int).toNat =
          a.length + 1 + b.length := by omega
      rw [htn]
      have htake : (a ++ quoteChar :: (b ++ quoteChar :: c)).take
          (a.length + 1 + b.length) = a ++ quoteChar :: b := by
        have hsh : a ++ quoteChar :: (b ++ quoteChar :: c) =
            (a ++ quoteChar :: b) ++ (quoteChar :: c) := by simp
        rw [hsh, List.take_left' (by simp; omega)]
      rw [htake]
      have hsh2 : a ++ quoteChar :: b = (a ++ [quoteChar]) ++ b := by simp
      rw [hsh2, List.drop_left' (by simp)]
    rw [extract_missing_module, if_pos hmark]
    simp only [hfind1, hstart, hfind2, hslice]
  · intro msg hmark
    rw [extract_missing_module, if_neg (by simp [hmark])]
  · intro env code stderr hv h1 hmn hnone
    obtain ⟨venv, run1, installOk, run2⟩ := env
    obtain rfl : venv = none := hv
    obtain rfl : run1 = RunResult.err stderr := h1
    have hr : execute_code ⟨none, RunResult.err stderr, installOk, run2⟩ code =
        ⟨joinNL [strC "Virtual environment set up.",
          strC "Error: Unable to extract module name from error: " ++ stderr], 0, 1⟩ := by
      simp only [execute_code]
      rw [if_pos hmn, hnone]
      exact rfl
    rw [hr]
    refine hasSub_joinNL
      (l := strC "Error: Unable to extract module name from error: " ++ stderr)
      (by simp) (List.IsPrefix.isInfix ?_)
    have heq : strC "Error: Unable to extract module name from error: " ++ stderr =
        strC "Error: Unable to extract module name" ++
          (strC " from error: " ++ stderr) := by
      simp [strC, List.append_assoc]
    rw [heq]
    exact List.prefix_append _ _

/-- Witness for the amended C4 theorem at a concrete error message. -/
theorem extract_first_two_quotes_witness :
    extract_missing_module (strC "No module named " ++
      (quoteChar :: (strC "numpy" ++ quoteChar :: []))) = some (strC "numpy") :=
  extract_first_two_quotes.1 (strC "No module named ") (strC "numpy") []
    (by decide) (by decide) (by decide)

/-- Index of the first occurrence of a substring, or `none`. -/
def findSub (p : List Char) : List Char → Option Nat
  | [] => if isPreB p [] then some 0 else none
  | s@(_ :: rest) => if isPreB p s then some 0 else (findSub p rest).map (· + 1)

/-- Modelled from the spec: the missing module name is "the substring
between the first two single-quote characters following the
`No module named` marker" — quotes are searched only after the first
occurrence of the marker. This is the description in the spec, kept separate to
compare with what the source computes. -/
def extractSpecModule (msg : List Char) : Option (List Char) :=
  match findSub (strC "No module named") msg with
  | none => none
  | some i =>
    let after := msg.drop (i + (strC "No module named").length)
    match findFrom quoteChar after with
    | none => none
    | some j =>
      match findFrom quoteChar ((after.drop (j + 1))) with
      | none => none
      | some k => some ((after.drop (j + 1)).take k)

/-- The error text used for the C4 counterexample: a quoted word precedes
the `No module named` marker. -/
def cxMsg : List Char :=
  strC "warning: " ++ [quoteChar] ++ strC "left" ++ [quoteChar] ++
    strC " ModuleNotFoundError: No module named " ++ [quoteChar] ++
    strC "numpy" ++ [quoteChar]

/-- C4 counterexample: on this error text the code extracts the substring
between the first two quotes of the whole text (`left`), not the name
between the first two quotes following the marker (`numpy`), so the claim
as stated is false. -/
theorem extract_module_cx :
    extract_missing_module cxMsg = some (strC "left") ∧
      extractSpecModule cxMsg = some (strC "numpy") := by
  constructor
  · decide
  · decide

/-! ### search_duckduckgo: URL unwrapping at the byte level -/

/-- Bytes of an ASCII string literal. -/
def strB (s : String) : List Nat := s.data.map Char.toNat

/-- The bytes never percent-encoded by `urllib.parse.quote` with its
default `safe="/"`: letters, digits, `_ . - ~` and `/`. -/
def quoteSafeByte (b : Nat) : Bool :=
  (65 ≤ b && b ≤ 90) || (97 ≤ b && b ≤ 122) || (48 ≤ b && b ≤ 57) ||
    b == 95 || b == 46 || b == 45 || b == 126 || b == 47

/-- Upper-case hexadecimal digit of a value below 16. -/
def hexDigitByte (n : Nat) : Nat := if n < 10 then 48 + n else 55 + n

/-- `urllib.parse.quote` on UTF-8 bytes with the default safe set. -/
def quoteBytes (u : List Nat) : List Nat :=
  u.flatMap fun b =>
    if quoteSafeByte b then [b] else [37, hexDigitByte (b / 16), hexDigitByte (b % 16)]

/-- Whether a byte is an ASCII hexadecimal digit. -/
def isHexDigitByte (b : Nat) : Bool :=
  (48 ≤ b && b ≤ 57) || (65 ≤ b && b ≤ 70) || (97 ≤ b && b ≤ 102)

/-- Value of an ASCII hexadecimal digit. -/
def hexValByte (b : Nat) : Nat :=
  if b ≤ 57 then b - 48 else if b ≤ 70 then b - 55 else b - 87

/-- `urllib.parse.unquote` on bytes: decode every `%xx` sequence with two
hexadecimal digits; leave invalid sequences untouched. -/
def unquoteBytes : List Nat → List Nat
  | [] => []
  | b :: a :: c :: rest2 =>
    if b = 37 && isHexDigitByte a && isHexDigitByte c then
      (16 * hexValByte a + hexValByte c) :: unquoteBytes rest2
    else b :: unquoteBytes (a :: c :: rest2)
  | b :: rest => b :: unquoteBytes rest

/-- The marker tested by `search_duckduckgo` to recognise a redirect
link. -/
def ddgMarker : List Nat := strB "duckduckgo.com/l/?uddg="

/-- The split separator extracting the encoded target. -/
def uddgSep : List Nat := strB "uddg="

/-- The tracking-parameter separator. -/
def rutSep : List Nat := strB "&rut="

/-- The URL unwrapping of `search_duckduckgo` (source lines 136-145):
when the link contains the redirect marker, percent-decode everything
after `uddg=` and cut at the first `&rut=`; otherwise pass the link
through unchanged. -/
def unwrapLink (link : List Nat) : List Nat :=
  if hasSub ddgMarker link then
    let canonical := unquoteBytes ((pySplitG uddgSep link).getD 1 [])
    if hasSub rutSep canonical then (pySplitG rutSep canonical).getD 0 []
    else canonical
  else link

/-- Modelled from the spec: the outbound redirect wrapper of the engine, which
is not part of the repository. It percent-encodes the destination URL as
the `uddg` parameter and appends a `rut` tracking parameter. -/
def wrapDDG (url rut : List Nat) : List Nat :=
  strB "https://duckduckgo.com/l/?uddg=" ++ quoteBytes url ++ strB "&rut=" ++ rut

theorem prefix_getElem? {α : Type} {p w : List α} (h : p <+: w) {i : Nat}
    (hi : i < p.length) : w[i]? = p[i]? := by
  obtain ⟨t, rfl⟩ := h
  rw [List.getElem?_append, if_pos hi]

/-- A separator-free string is returned whole by the split. -/
theorem pySplitG_single [DecidableEq α] (sep : List α) (hsep : sep ≠ []) :
    ∀ s : List α, ¬ sep <:+: s → pySplitG sep s = [s]
  | [], _ => pySplitG_nil sep hsep
  | c :: rest, hni => by
    have hm : isPreB sep (c :: rest) = false := by
      cases hp : isPreB sep (c :: rest)
      · rfl
      · exact absurd ((isPreB_iff _ _).mp hp).isInfix hni
    rw [pySplitG_cons sep hsep, if_neg (by simp [hm]),
      pySplitG_single sep hsep rest (fun hr => hni (List.infix_cons hr))]
    rfl

/-- Splitting at a distinguished separator occurrence: when no earlier
occurrence exists, the split cuts exactly there. -/
theorem pySplitG_append [DecidableEq α] (sep : List α) (hsep : sep ≠ []) :
    ∀ (a b : List α),
      (∀ a₂, a₂ <:+ a → a₂ ≠ [] → ¬ sep <+: a₂ ++ (sep ++ b)) →
      pySplitG sep (a ++ (sep ++ b)) = a :: pySplitG sep b
  | [], b, _ => by
    rw [List.nil_append]
    cases sep with
    | nil => exact absurd rfl hsep
    | cons d sep2 =>
      rw [List.cons_append, pySplitG_cons _ hsep,
        if_pos ((isPreB_iff _ _).mpr
          (by rw [← List.cons_append]; exact List.prefix_append _ _)),
        ← List.cons_append, List.drop_left' rfl]
  | c :: a2, b, H => by
    rw [List.cons_append, pySplitG_cons sep hsep]
    have hm : isPreB sep (c :: (a2 ++ (sep ++ b))) = false := by
      cases hp : isPreB sep (c :: (a2 ++ (sep ++ b)))
      · rfl
      · exfalso
        refine H (c :: a2) (List.suffix_refl _) (by simp) ?_
        rw [List.cons_append]
        exact (isPreB_iff _ _).mp hp
    rw [if_neg (by simp [hm]),
      pySplitG_append sep hsep a2 b
        (fun a₂ hsuf hne => H a₂ (hsuf.trans (List.suffix_cons c a2)) hne)]
    rfl

/-- No occurrence of the separator can start strictly inside `a₂` or
straddle the boundary, when the head letter of the separator repeats nowhere
else in the separator and the separator does not occur in the ambient
string `a`. -/
theorem sep_no_overlap {α : Type} [DecidableEq α] {h : α} {t : List α}
    {a a₂ z : List α} (hht : h ∉ t) (hna : ¬ (h :: t) <:+: a)
    (ha₂ : a₂ <:+ a) (hne : a₂ ≠ []) :
    ¬ (h :: t) <+: a₂ ++ ((h :: t) ++ z) := by
  intro hpre
  by_cases hlen : (h :: t).length ≤ a₂.length
  · have htake : h :: t = (a₂ ++ ((h :: t) ++ z)).take (h :: t).length :=
      List.prefix_iff_eq_take.mp hpre
    rw [List.take_append_of_le_length hlen] at htake
    have hpre2 : h :: t <+: a₂ := htake ▸ List.take_prefix _ _
    exact hna (List.infix_iff_prefix_suffix.mpr ⟨a₂, hpre2, ha₂⟩)
  · cases a₂ with
    | nil => exact hne rfl
    | cons x a3 =>
      have hj : a3.length + 1 < (h :: t).length := by
        simp at hlen
        simpa using hlen
      have hw : ((x :: a3) ++ ((h :: t) ++ z))[a3.length + 1]? = some h := by
        rw [List.getElem?_append, if_neg (by simp), List.length_cons, Nat.sub_self]
        simp
      have hs : (h :: t)[a3.length + 1]? = some h := by
        rw [← prefix_getElem? hpre hj]
        exact hw
      rw [List.getElem?_cons_succ] at hs
      exact hht (List.getElem?_mem hs)

theorem unquoteBytes_cons_ne37 {b : Nat} (hb : ¬ b = 37) (rest : List Nat) :
    unquoteBytes (b :: rest) = b :: unquoteBytes rest := by
  match rest with
  | [] => rfl
  | [a] => rfl
  | a :: c :: rest2 =>
    rw [unquoteBytes, if_neg (by simp [hb])]

theorem unquoteBytes_append_ne37 :
    ∀ {a : List Nat}, (∀ x ∈ a, ¬ x = 37) → ∀ (t : List Nat),
      unquoteBytes (a ++ t) = a ++ unquoteBytes t
  | [], _, t => rfl
  | b :: a2, ha, t => by
    rw [List.cons_append,
      unquoteBytes_cons_ne37 (ha b (List.mem_cons_self _ _)) _,
      unquoteBytes_append_ne37 (fun x hx => ha x (List.mem_cons_of_mem _ hx)) t]
    rfl

theorem hexDigitByte_isHex {n : Nat} (hn : n < 16) :
    isHexDigitByte (hexDigitByte n) = true := by
  unfold hexDigitByte isHexDigitByte
  split <;> simp <;> omega

theorem hexValByte_hexDigitByte {n : Nat} (hn : n < 16) :
    hexValByte (hexDigitByte n) = n := by
  unfold hexDigitByte hexValByte
  split
  · rw [if_pos (by omega)]
    omega
  · rw [if_neg (by omega), if_pos (by omega)]
    omega

theorem quoteSafeByte_ne37 {b : Nat} (hb : quoteSafeByte b = true) : ¬ b = 37 := by
  intro h
  subst h
  exact absurd hb (by decide)

/-- Percent-encoding round trip, compositionally: decoding an encoded
string followed by anything decodes the prefix to the original bytes. -/
theorem unquote_quote : ∀ {u : List Nat}, (∀ b ∈ u, b < 256) → ∀ (t : List Nat),
    unquoteBytes (quoteBytes u ++ t) = u ++ unquoteBytes t
  | [], _, t => rfl
  | b :: u2, hu, t => by
    have hb : b < 256 := hu b (List.mem_cons_self _ _)
    have hu2 : ∀ x ∈ u2, x < 256 := fun x hx => hu x (List.mem_cons_of_mem _ hx)
    show unquoteBytes ((if quoteSafeByte b then [b]
      else [37, hexDigitByte (b / 16), hexDigitByte (b % 16)]) ++ quoteBytes u2 ++ t) = _
    by_cases hsafe : quoteSafeByte b
    · rw [if_pos hsafe]
      simp only [List.cons_append, List.nil_append]
      rw [unquoteBytes_cons_ne37 (quoteSafeByte_ne37 hsafe) _, unquote_quote hu2 t]
    · rw [if_neg hsafe]
      have h1 : isHexDigitByte (hexDigitByte (b / 16)) = true :=
        hexDigitByte_isHex (by omega)
      have h2 : isHexDigitByte (hexDigitByte (b % 16)) = true :=
        hexDigitByte_isHex (by omega)
      show unquoteBytes (37 :: hexDigitByte (b / 16) :: hexDigitByte (b % 16) ::
        (quoteBytes u2 ++ t)) = _
      rw [unquoteBytes, if_pos (by simp [h1, h2]), unquote_quote hu2 t,
        hexValByte_hexDigitByte (by omega : b / 16 < 16),
        hexValByte_hexDigitByte (by omega : b % 16 < 16)]
      have hbb : 16 * (b / 16) + b % 16 = b := by omega
      rw [hbb]
      rfl

theorem quoteBytes_not_mem_61 (u : List Nat) : (61 : Nat) ∉ quoteBytes u := by
  intro hmem
  rw [quoteBytes, List.mem_flatMap] at hmem
  obtain ⟨b, _, hb⟩ := hmem
  have hx : ∀ n : Nat, hexDigitByte n ≠ 61 := by
    intro n h
    unfold hexDigitByte at h
    split at h <;> omega
  by_cases hsafe : quoteSafeByte b
  · rw [if_pos hsafe, List.mem_singleton] at hb
    subst hb
    exact absurd hsafe (by decide)
  · rw [if_neg hsafe] at hb
    simp only [List.mem_cons, List.mem_singleton, List.not_mem_nil, or_false] at hb
    rcases hb with h | h | h
    · omega
    · exact hx _ h.symm
    · exact hx _ h.symm

/-- The `uddg=` separator occurs nowhere in the percent-encoded target
followed by the tracking part: every `=` there is either encoded away or
preceded by `&rut`, never by `uddg`. -/
theorem uddg_not_infix_tail {Q rut : List Nat} (hQ : (61 : Nat) ∉ Q)
    (hrut : (61 : Nat) ∉ rut) : ¬ uddgSep <:+: Q ++ (rutSep ++ rut) := by
  intro hinf
  obtain ⟨s, t, hst⟩ := hinf
  have h61 : (Q ++ (rutSep ++ rut))[s.length + 4]? = some 61 := by
    rw [← hst, List.getElem?_append,
      if_pos (by simp [uddgSep, strB]),
      List.getElem?_append, if_neg (by omega)]
    have h4 : s.length + 4 - s.length = 4 := by omega
    rw [h4]
    decide
  have h117 : (Q ++ (rutSep ++ rut))[s.length]? = some 117 := by
    rw [← hst, List.getElem?_append,
      if_pos (by simp [uddgSep, strB]),
      List.getElem?_append, if_neg (by omega), Nat.sub_self]
    decide
  have hsQ : s.length = Q.length := by
    by_cases hlt : s.length + 4 < Q.length
    · rw [List.getElem?_append, if_pos hlt] at h61
      exact absurd (List.getElem?_mem h61) hQ
    · rw [List.getElem?_append, if_neg hlt] at h61
      obtain ⟨m, hmeq⟩ : ∃ m, s.length + 4 - Q.length = m := ⟨_, rfl⟩
      rw [hmeq] at h61
      by_cases hm5 : m < 5
      · rw [List.getElem?_append,
          if_pos (by simp [rutSep, strB]; omega)] at h61
        have hm4 : m = 4 := by
          rcases m with _ | _ | _ | _ | _ | m6
          · exact absurd h61 (by decide)
          · exact absurd h61 (by decide)
          · exact absurd h61 (by decide)
          · exact absurd h61 (by decide)
          · rfl
          · omega
        omega
      · rw [List.getElem?_append,
          if_neg (by simp [rutSep, strB]; omega)] at h61
        exact absurd (List.getElem?_mem h61) hrut
  rw [List.getElem?_append, if_neg (by omega), hsQ, Nat.sub_self] at h117
  have : (38 : Nat) = 117 := by
    have h38 : (rutSep ++ rut)[0]? = some 38 := by
      rw [List.getElem?_append, if_pos (by simp [rutSep, strB])]
      decide
    exact (Option.some.injEq _ _).mp (h38.symm.trans h117)
  omega

/-- C8 (amended): unwrapping the redirect-wrapped form of a destination
URL recovers the URL whenever the URL does not itself contain the `&rut=`
tracking separator (and the tracking token contains no `=`); non-wrapped
links pass through unchanged. -/
theorem unwrap_wrap_roundtrip (url rut : List Nat)
    (hbytes : ∀ b ∈ url, b < 256)
    (hrut : hasSub rutSep url = false)
    (hrute : (61 : Nat) ∉ rut) :
    unwrapLink (wrapDDG url rut) = url ∧
      (∀ link : List Nat, hasSub ddgMarker link = false → unwrapLink link = link) := by
  constructor
  · have hquote61 := quoteBytes_not_mem_61 url
    have hA : strB "https://duckduckgo.com/l/?uddg=" =
        strB "https://duckduckgo.com/l/?" ++ uddgSep := by decide
    have hshape : wrapDDG url rut =
        strB "https://duckduckgo.com/l/?" ++
          (uddgSep ++ (quoteBytes url ++ (rutSep ++ rut))) := by
      rw [wrapDDG, hA]
      simp [List.append_assoc, rutSep]
    have hm2 : strB "https://duckduckgo.com/l/?" ++ uddgSep =
        strB "https://" ++ ddgMarker := by decide
    have hmark : hasSub ddgMarker (wrapDDG url rut) = true := by
      rw [hasSub_iff]
      refine ⟨strB "https://", quoteBytes url ++ (rutSep ++ rut), ?_⟩
      rw [hshape, ← List.append_assoc, ← hm2]
      simp [List.append_assoc]
    have hsplit1 : pySplitG uddgSep (wrapDDG url rut) =
        strB "https://duckduckgo.com/l/?" ::
          pySplitG uddgSep (quoteBytes url ++ (rutSep ++ rut)) := by
      rw [hshape]
      refine pySplitG_append uddgSep (by decide) _ _ ?_
      intro a₂ hsuf hne
      rw [show uddgSep = 117 :: [100, 100, 103, 61] from by decide]
      exact sep_no_overlap (by decide)
        ((show uddgSep = 117 :: [100, 100, 103, 61] from by decide) ▸
          (hasSub_eq_false_iff _ _).mp (by decide)) hsuf hne
    have hsingle : pySplitG uddgSep (quoteBytes url ++ (rutSep ++ rut)) =
        [quoteBytes url ++ (rutSep ++ rut)] :=
      pySplitG_single uddgSep (by decide) _ (uddg_not_infix_tail hquote61 hrute)
    have huq : unquoteBytes (quoteBytes url ++ (rutSep ++ rut)) =
        url ++ (rutSep ++ unquoteBytes rut) := by
      rw [unquote_quote hbytes, unquoteBytes_append_ne37 (by decide) rut]
    have hrpresent : hasSub rutSep (url ++ (rutSep ++ unquoteBytes rut)) = true := by
      rw [hasSub_iff]
      exact ⟨url, unquoteBytes rut, by simp⟩
    have hsplit2 : pySplitG rutSep (url ++ (rutSep ++ unquoteBytes rut)) =
        url :: pySplitG rutSep (unquoteBytes rut) := by
      refine pySplitG_append rutSep (by decide) _ _ ?_
      intro a₂ hsuf hne
      rw [show rutSep = 38 :: [114, 117, 116, 61] from by decide]
      exact sep_no_overlap (by decide)
        ((show rutSep = 38 :: [114, 117, 116, 61] from by decide) ▸
          (hasSub_eq_false_iff _ _).mp hrut) hsuf hne
    rw [unwrapLink, if_pos hmark]
    simp only [hsplit1, hsingle, List.getD_cons_succ, List.getD_cons_zero, huq,
      hrpresent, if_true, hsplit2]
  · intro link hmlink
    rw [unwrapLink, if_neg (by simp [hmlink])]

/-- Witness for the amended C8 round trip at a URL with characters that
require percent-encoding. -/
theorem unwrap_wrap_roundtrip_witness :
    unwrapLink (wrapDDG (strB "https://example.com/a b?q=1") (strB "abc123")) =
      strB "https://example.com/a b?q=1" :=
  (unwrap_wrap_roundtrip (strB "https://example.com/a b?q=1") (strB "abc123")
    (by decide) (by decide) (by decide)).1

/-- C8 counterexample: a destination URL that itself contains `&rut=`
loses its tail in the round trip, because the tracking strip cuts at the
first `&rut=` of the decoded string. -/
theorem unwrap_wrap_cx :
    unwrapLink (wrapDDG (strB "https://example.com/?a=1&rut=x") (strB "t")) =
        strB "https://example.com/?a=1" ∧
      strB "https://example.com/?a=1" ≠ strB "https://example.com/?a=1&rut=x" := by
  constructor
  · decide
  · decide

/-! ### The conversation orchestrator -/

/-- A conversation message: role plus content. -/
structure ChatMessage where
  role : String
  content : String
deriving DecidableEq, Repr

/-- One search result as formatted by `search_duckduckgo`. -/
structure SearchResult where
  title : String
  url : String
  description : Option String
deriving DecidableEq, Repr

/-- The arguments of a tool invocation, as the dictionary lookups
`content_item.input.get(...)` see them. -/
structure ToolInput where
  query : Option String
  url : Option String
  code : Option String
  numResults : Option Nat
deriving DecidableEq, Repr

/-- One content item of a model response: plain text or a tool
invocation. -/
inductive ContentItem where
  | text (s : String)
  | toolUse (name : String) (input : ToolInput)
deriving DecidableEq, Repr

/-- The external world as the orchestration loop sees it: the model API
(which may raise), the search provider (which may raise), the webpage
fetcher and the code sandbox (which never raise, being the total functions
`read_webpage` and `execute_code`). `respond` receives the 1-based
iteration count, the context sent, and whether the tool schema is included,
so every possible sequence of model responses is representable. -/
structure Oracle where
  respond : Nat → List ChatMessage → Bool → Except String (List ContentItem)
  search : String → Nat → Except String (List SearchResult)
  fetch : Option String → String
  exec : String → String

/-- The mutable state during one turn: the local copy of the context, the
session display transcript, the session last-executed-code marker, and a
ghost trace of the code strings passed to the Sandbox. -/
structure LoopState where
  msgs : List ChatMessage
  display : List ChatMessage
  lastExec : Option String
  execCalls : List String
deriving DecidableEq, Repr

/-- Python `str(...)` of an optional URL argument, as an f-string renders
it. -/
def urlText : Option String → String
  | none => "None"
  | some u => u

/-- The numbered search-result block built by the web_search branch
(source lines 320-325). -/
def formatResults : Nat → List SearchResult → List String
  | _, [] => []
  | idx, r :: rs =>
    (toString idx ++ ". **" ++ r.title ++ "**") ::
      ("   URL: " ++ r.url) ::
      ("   " ++ r.description.getD "") ::
      formatResults (idx + 1) rs

/-- Processing of one response content item (source lines 301-400).
Returns the updated state, or the exception message when the search
provider raises or a missing query makes `urllib.parse.quote` raise. -/
def processItem (o : Oracle) (st : LoopState) : ContentItem → Except String LoopState
  | .text s =>
    .ok { st with msgs := st.msgs ++ [⟨"assistant", s⟩],
                  display := st.display ++ [⟨"assistant", s⟩] }
  | .toolUse name input =>
    if name = "web_search" then
      match input.query with
      | none => .error "TypeError: quote from None"
      | some q =>
        match o.search q (input.numResults.getD 5) with
        | .error e => .error e
        | .ok results =>
          let searchText := String.intercalate "\n"
            ("🔍 **Search Results**" :: ("Query: " ++ q) :: formatResults 1 results)
          .ok { st with msgs := st.msgs ++ [⟨"user", searchText⟩],
                        display := st.display ++ [⟨"assistant", searchText⟩] }
    else if name = "read_webpage" then
      let content := o.fetch input.url
      let webpageText := String.intercalate "\n"
        ["📄 **Webpage Content**", "Reading: " ++ urlText input.url,
         "Extracted content:", content.take 500 ++ "..."]
      .ok { st with
        msgs := st.msgs ++
          [⟨"user", "Content from " ++ urlText input.url ++ ": " ++ content⟩],
        display := st.display ++ [⟨"assistant", webpageText⟩] }
    else if name = "execute_code" then
      match input.code with
      | none => .ok st
      | some code =>
        if code = "" then .ok st
        else if st.lastExec = some code then
          .ok { st with msgs := st.msgs ++
            [⟨"user", "The specified code has already been executed."⟩] }
        else
          let codeDisplay := "💻 **Code to be Executed:**\n```python\n" ++ code ++ "\n```"
          let executionResult := o.exec code
          let codeExecutionText :=
            "💻 **Code Execution Result**\n```\n" ++ executionResult ++ "\n```"
          .ok { st with
            msgs := st.msgs ++ [⟨"user", codeExecutionText⟩],
            display := st.display ++
              [⟨"assistant", codeDisplay⟩, ⟨"assistant", codeExecutionText⟩],
            lastExec := some code,
            execCalls := st.execCalls ++ [code] }
    else .ok st

/-- Sequential processing of all content items; on an exception the state
reached so far is kept (the session fields already mutated stay
mutated). -/
def processItems (o : Oracle) : LoopState → List ContentItem → Option String × LoopState
  | st, [] => (none, st)
  | st, item :: rest =>
    match processItem o st item with
    | .error e => (some e, st)
    | .ok st2 => processItems o st2 rest

/-- `any(item.type == "tool_use" for item in response.content)`. -/
def hasToolUse (content : List ContentItem) : Bool :=
  content.any fun item =>
    match item with
    | .toolUse _ _ => true
    | .text _ => false

/-- The iteration cap of the orchestration loop (source line 285). -/
def maxIterations : Nat := 5

/-- Instrumentation record of one model API call: the 1-based iteration
count and whether the tool schema was passed. -/
structure CallRecord where
  iteration : Nat
  toolsOn : Bool
deriving DecidableEq, Repr

/-- The orchestration `while` loop (source lines 289-404), with
`fuel = maxIterations - iteration_count` making the loop condition
structural. Returns the exception raised (if any), the final state, and
the trace of model API calls. -/
def runLoop (o : Oracle) : Nat → Nat → LoopState → List CallRecord →
    Option String × LoopState × List CallRecord
  | 0, _, st, trace => (none, st, trace)
  | fuel + 1, iterCount, st, trace =>
    let ic := iterCount + 1
    let toolsOn := decide (ic < maxIterations - 1)
    let trace2 := trace ++ [⟨ic, toolsOn⟩]
    match o.respond ic st.msgs toolsOn with
    | .error e => (some e, st, trace2)
    | .ok content =>
      match processItems o st content with
      | (some e, st2) => (some e, st2, trace2)
      | (none, st2) =>
        if hasToolUse content then runLoop o fuel ic st2 trace2
        else (none, st2, trace2)

/-- Streamlit session state at turn boundaries. -/
structure Session where
  messages : List ChatMessage
  displayMessages : List ChatMessage
  lastExecutedCode : Option String
deriving DecidableEq, Repr

/-- The observable outcome of one user turn. -/
structure TurnResult where
  session : Session
  trace : List CallRecord
  ok : Bool
  execCalls : List String
deriving DecidableEq, Repr

/-- One user turn (source lines 274-410): append the prompt to both logs,
run the loop on a local copy of the context, and copy the new context back
into the session only when no exception was raised; the display transcript
and the last-executed-code marker are mutated in place either way. -/
def runTurn (o : Oracle) (s : Session) (prompt : String) : TurnResult :=
  let msgs0 := s.messages ++ [⟨"user", prompt⟩]
  let disp0 := s.displayMessages ++ [⟨"user", prompt⟩]
  let st0 : LoopState := ⟨msgs0, disp0, s.lastExecutedCode, []⟩
  match runLoop o maxIterations 0 st0 [] with
  | (none, st, trace) => ⟨⟨st.msgs, st.display, st.lastExec⟩, trace, true, st.execCalls⟩
  | (some _, st, trace) => ⟨⟨msgs0, st.display, st.lastExec⟩, trace, false, st.execCalls⟩

theorem runLoop_trace_len (o : Oracle) :
    ∀ (fuel iterCount : Nat) (st : LoopState) (trace : List CallRecord),
      (runLoop o fuel iterCount st trace).2.2.length ≤ trace.length + fuel
  | 0, _, st, tr => Nat.le_add_right _ _
  | fuel + 1, ic, st, tr => by
    simp only [runLoop]
    split
    · simp only [List.length_append, List.length_cons, List.length_nil]
      omega
    · split
      · simp only [List.length_append, List.length_cons, List.length_nil]
        omega
      · split
        · rename_i content _ st2 _ _
          have h := runLoop_trace_len o fuel (ic + 1) st2
            (tr ++ [⟨ic + 1, decide (ic + 1 < maxIterations - 1)⟩])
          simp only [List.length_append, List.length_cons, List.length_nil] at h
          omega
        · simp only [List.length_append, List.length_cons, List.length_nil]
          omega

theorem runLoop_trace_spec (o : Oracle) :
    ∀ (fuel iterCount : Nat) (st : LoopState) (trace : List CallRecord),
      iterCount + fuel ≤ maxIterations →
      (∀ c ∈ trace, (c.toolsOn = true ↔ c.iteration < maxIterations - 1) ∧
        1 ≤ c.iteration ∧ c.iteration ≤ maxIterations) →
      ∀ c ∈ (runLoop o fuel iterCount st trace).2.2,
        (c.toolsOn = true ↔ c.iteration < maxIterations - 1) ∧
        1 ≤ c.iteration ∧ c.iteration ≤ maxIterations
  | 0, _, st, tr, _, htr => htr
  | fuel + 1, ic, st, tr, hcap, htr => by
    have htr2 : ∀ c ∈ tr ++ [⟨ic + 1, decide (ic + 1 < maxIterations - 1)⟩],
        (c.toolsOn = true ↔ c.iteration < maxIterations - 1) ∧
        1 ≤ c.iteration ∧ c.iteration ≤ maxIterations := by
      intro c hc
      rcases List.mem_append.mp hc with hc | hc
      · exact htr c hc
      · rw [List.mem_singleton] at hc
        subst hc
        refine ⟨by simp, by simp, ?_⟩
        simp only [maxIterations] at hcap ⊢
        omega
    simp only [runLoop]
    split
    · exact htr2
    · split
      · exact htr2
      · split
        · rename_i content _ st2 _ _
          exact runLoop_trace_spec o fuel (ic + 1) st2 _ (by omega) htr2
        · exact htr2

/-- C2: the tool schema is passed to the model exactly on the iterations
whose 1-based count is below `maxIterations - 1` (so it is omitted on the
fourth and fifth of five permitted iterations); every call of a turn has
an iteration count between 1 and `maxIterations`. -/
theorem tool_schema_cutoff (o : Oracle) (s : Session) (prompt : String) :
    ∀ c ∈ (runTurn o s prompt).trace,
      (c.toolsOn = true ↔ c.iteration < maxIterations - 1) ∧
      1 ≤ c.iteration ∧ c.iteration ≤ maxIterations := by
  have h := runLoop_trace_spec o maxIterations 0
    ⟨s.messages ++ [⟨"user", prompt⟩], s.displayMessages ++ [⟨"user", prompt⟩],
     s.lastExecutedCode, []⟩ [] (by omega) (by simp)
  simp only [runTurn]
  rcases hr : runLoop o maxIterations 0
    ⟨s.messages ++ [⟨"user", prompt⟩], s.displayMessages ++ [⟨"user", prompt⟩],
     s.lastExecutedCode, []⟩ [] with ⟨oe, st, trace⟩
  rw [hr] at h
  rw [hr]
  cases oe <;> simpa using h

/-- C1: the orchestrator issues at most `maxIterations` model API calls
per user turn, whatever the model and the tools do. -/
theorem orchestrator_call_cap (o : Oracle) (s : Session) (prompt : String) :
    (runTurn o s prompt).trace.length ≤ maxIterations := by
  have h := runLoop_trace_len o maxIterations 0
    ⟨s.messages ++ [⟨"user", prompt⟩], s.displayMessages ++ [⟨"user", prompt⟩],
     s.lastExecutedCode, []⟩ []
  simp only [runTurn]
  rcases hr : runLoop o maxIterations 0
    ⟨s.messages ++ [⟨"user", prompt⟩], s.displayMessages ++ [⟨"user", prompt⟩],
     s.lastExecutedCode, []⟩ [] with ⟨oe, st, trace⟩
  rw [hr] at h
  rw [hr]
  simp only [List.length_nil, Nat.zero_add] at h
  cases oe <;> simpa using h

/-- A model oracle that keeps requesting an unrecognised tool, driving the
loop to its iteration cap. -/
def oracleLoops : Oracle :=
  ⟨fun _ _ _ => .ok [.toolUse "noop" ⟨none, none, none, none⟩],
   fun _ _ => .ok [], fun _ => "", fun _ => ""⟩

/-- Witness for C2: under `oracleLoops` the fourth model call of a turn
happens, and on it the tool schema is omitted. -/
theorem tool_schema_cutoff_witness :
    (((⟨4, false⟩ : CallRecord).toolsOn = true ↔
      (⟨4, false⟩ : CallRecord).iteration < maxIterations - 1) ∧
      1 ≤ (⟨4, false⟩ : CallRecord).iteration ∧
      (⟨4, false⟩ : CallRecord).iteration ≤ maxIterations) :=
  tool_schema_cutoff oracleLoops ⟨[], [], none⟩ "hi" ⟨4, false⟩ (by decide)

/-- C5: a resubmission equal to the last executed code never reaches the
Sandbox: the dispatcher appends only the already-executed notice to the
context, leaves the transcript and the marker unchanged, and records no
sandbox invocation. The guard is plain equality of the submitted string
with the single stored last-executed-code value. -/
theorem already_executed_guard (o : Oracle) (st : LoopState) (code : String)
    (input : ToolInput) (hcode : input.code = some code) (hne : code ≠ "")
    (hlast : st.lastExec = some code) :
    processItem o st (.toolUse "execute_code" input) =
      .ok { st with msgs := st.msgs ++
        [⟨"user", "The specified code has already been executed."⟩] } := by
  simp only [processItem]
  rw [if_neg (by decide : ¬ ("execute_code" = "web_search")),
    if_neg (by decide : ¬ ("execute_code" = "read_webpage")),
    if_pos trivial, hcode]
  simp only [if_neg hne, if_pos hlast]

/-- Witness for C5 at a concrete state and code. -/
theorem already_executed_guard_witness :
    processItem oracleLoops ⟨[], [], some "print(1)", []⟩
      (.toolUse "execute_code" ⟨none, none, some "print(1)", none⟩) =
      .ok ⟨[⟨"user", "The specified code has already been executed."⟩],
        [], some "print(1)", []⟩ :=
  already_executed_guard oracleLoops ⟨[], [], some "print(1)", []⟩ "print(1)"
    ⟨none, none, some "print(1)", none⟩ rfl (by decide) rfl

/-- C9: an `execute_code` tool invocation with a missing or empty `code`
argument changes nothing: no Sandbox call, no message appended to context
or transcript, no marker update, no acknowledgment to the model. -/
theorem empty_code_noop (o : Oracle) (st : LoopState) (input : ToolInput)
    (h : input.code = none ∨ input.code = some "") :
    processItem o st (.toolUse "execute_code" input) = .ok st := by
  simp only [processItem]
  rw [if_neg (by decide : ¬ ("execute_code" = "web_search")),
    if_neg (by decide : ¬ ("execute_code" = "read_webpage")),
    if_pos trivial]
  rcases h with h | h
  · rw [h]
  · rw [h]
    rfl

/-- Witness for C9 with an absent code argument. -/
theorem empty_code_noop_witness :
    processItem oracleLoops ⟨[], [], none, []⟩
      (.toolUse "execute_code" ⟨none, none, none, none⟩) =
      .ok ⟨[], [], none, []⟩ :=
  empty_code_noop oracleLoops ⟨[], [], none, []⟩ ⟨none, none, none, none⟩ (Or.inl rfl)

theorem processItem_display {o : Oracle} {st st2 : LoopState} {item : ContentItem}
    (h : processItem o st item = .ok st2) : st.display <+: st2.display := by
  cases item with
  | text s =>
    simp only [processItem, Except.ok.injEq] at h
    subst h
    exact List.prefix_append _ _
  | toolUse name input =>
    simp only [processItem] at h
    split at h
    · split at h
      · cases h
      · split at h
        · cases h
        · rw [Except.ok.injEq] at h
          subst h
          exact List.prefix_append _ _
    · split at h
      · rw [Except.ok.injEq] at h
        subst h
        exact List.prefix_append _ _
      · split at h
        · split at h
          · rw [Except.ok.injEq] at h
            subst h
            exact List.prefix_refl _
          · split at h
            · rw [Except.ok.injEq] at h
              subst h
              exact List.prefix_refl _
            · split at h
              · rw [Except.ok.injEq] at h
                subst h
                exact List.prefix_refl _
              · rw [Except.ok.injEq] at h
                subst h
                exact List.prefix_append _ _
        · rw [Except.ok.injEq] at h
          subst h
          exact List.prefix_refl _

theorem processItems_display (o : Oracle) :
    ∀ (items : List ContentItem) (st : LoopState),
      st.display <+: (processItems o st items).2.display
  | [], st => List.prefix_refl _
  | item :: rest, st => by
    simp only [processItems]
    split
    · exact List.prefix_refl _
    · rename_i st2 heq
      exact (processItem_display heq).trans (processItems_display o rest st2)

theorem runLoop_display (o : Oracle) :
    ∀ (fuel iterCount : Nat) (st : LoopState) (trace : List CallRecord),
      st.display <+: (runLoop o fuel iterCount st trace).2.1.display
  | 0, _, st, tr => List.prefix_refl _
  | fuel + 1, ic, st, tr => by
    simp only [runLoop]
    split
    · exact List.prefix_refl _
    · rename_i content heq
      have hp := processItems_display o content st
      split
      · rename_i e st2 hps
        rw [hps] at hp
        exact hp
      · rename_i st2 hps
        rw [hps] at hp
        split
        · exact hp.trans (runLoop_display o fuel (ic + 1) st2 _)
        · exact hp

/-- C10: when an exception aborts the turn, the persistent context holds
exactly the prior conversation plus the new user prompt (the loop mutated
only a local copy, and the copy-back runs only on success), while the
display transcript keeps every entry appended before the failure: the
pre-loop transcript is still a prefix of it. -/
theorem turn_rollback (o : Oracle) (s : Session) (prompt : String)
    (hfail : (runTurn o s prompt).ok = false) :
    (runTurn o s prompt).session.messages =
        s.messages ++ [⟨"user", prompt⟩] ∧
      (s.displayMessages ++ [⟨"user", prompt⟩]) <+:
        (runTurn o s prompt).session.displayMessages := by
  have hd := runLoop_display o maxIterations 0
    ⟨s.messages ++ [⟨"user", prompt⟩], s.displayMessages ++ [⟨"user", prompt⟩],
     s.lastExecutedCode, []⟩ []
  simp only [runTurn] at hfail ⊢
  rcases hr : runLoop o maxIterations 0
    ⟨s.messages ++ [⟨"user", prompt⟩], s.displayMessages ++ [⟨"user", prompt⟩],
     s.lastExecutedCode, []⟩ [] with ⟨oe, st, trace⟩
  rw [hr] at hfail hd ⊢
  cases oe with
  | none => cases hfail
  | some e => exact ⟨rfl, hd⟩

/-- A model oracle that answers the first call with text plus a tool
request and raises on every later call. -/
def oracleFails : Oracle :=
  ⟨fun ic _ _ =>
    if ic = 1 then .ok [.text "hello", .toolUse "noop" ⟨none, none, none, none⟩]
    else .error "boom",
   fun _ _ => .ok [], fun _ => "", fun _ => ""⟩

/-- Witness for C10: under `oracleFails` the turn fails on the second
model call; the context is rolled back to the prompt alone while the
transcript keeps the assistant text shown before the failure. -/
theorem turn_rollback_witness :
    (runTurn oracleFails ⟨[], [], none⟩ "hi").session.messages =
        [] ++ [⟨"user", "hi"⟩] ∧
      ([] ++ [(⟨"user", "hi"⟩ : ChatMessage)]) <+:
        (runTurn oracleFails ⟨[], [], none⟩ "hi").session.displayMessages :=
  turn_rollback oracleFails ⟨[], [], none⟩ "hi" (by decide)
